import Mathlib

/-
Verification of the ai-memory archive engine and its utilities.

The JavaScript source (src/commands/archive.js, src/utils/files.js,
src/utils/paths.js) is shallowly embedded below: each JS function becomes a
pure Lean function over explicit inputs (file contents, the current time in
milliseconds since the Unix epoch, the pre-existing archive contents), and
the filesystem effects of one archive run are reified as an ordered list of
write events.  JS numbers appearing in the retention-policy file are embedded
as an inductive wrapper around rationals with explicit infinities and NaN.
-/

namespace AiMemory

/-- JavaScript whitespace: the set matched by the regexp class backslash-s
(ECMA-262 WhiteSpace plus LineTerminator), which is also the set stripped by
String.prototype.trim. -/
def isJsWs (c : Char) : Bool :=
  c = ' ' || c = '\t' || c = '\n' || c = '\x0b' || c = '\x0c' || c = '\r' ||
  c = '\u00A0' || c = '\u1680' || ('\u2000' ≤ c && c ≤ '\u200A') ||
  c = '\u2028' || c = '\u2029' || c = '\u202F' || c = '\u205F' ||
  c = '\u3000' || c = '\uFEFF'

/-- ECMA-262 LineTerminator characters (the line boundaries recognised by the
m flag of a JS regexp). -/
def isLineTerm (c : Char) : Bool :=
  c = '\n' || c = '\r' || c = '\u2028' || c = '\u2029'

/-- JavaScript String.prototype.trim. -/
def jsTrim (s : String) : String :=
  String.mk (((s.data.dropWhile isJsWs).reverse.dropWhile isJsWs).reverse)

/-- JavaScript String.prototype.split with a single-character separator,
written as structural recursion over the character list so that it reduces
inside the kernel. -/
def splitCharAux (sep : Char) : List Char → List Char → List String
  | [], acc => [String.mk acc.reverse]
  | c :: rest, acc =>
    if c = sep then String.mk acc.reverse :: splitCharAux sep rest []
    else splitCharAux sep rest (c :: acc)

/-- JavaScript String.prototype.split with separator a single newline. -/
def splitLines (s : String) : List String :=
  splitCharAux '\n' s.data []

/-- Bool test that one string starts with another. -/
def strStartsWith (s pre : String) : Bool :=
  pre.data.isPrefixOf s.data

/-- Bool test that one string ends with another. -/
def strEndsWith (s suf : String) : Bool :=
  suf.data.isSuffixOf s.data

/-- Bool prefix test in the argument order of the source's startsWith call
on the resolved path. -/
def strIsPrefixOf (pre s : String) : Bool :=
  pre.data.isPrefixOf s.data

/-! ### Dates

A JS Date produced by new Date("YYYY-MM-DDT00:00:00Z") is embedded as the
civil triple it was built from; its getTime() value is recovered through the
standard civil-from-days conversion on the proleptic Gregorian calendar used
by ECMAScript. -/

def isLeapYear (y : ℤ) : Bool :=
  (y % 4 = 0 && ¬ y % 100 = 0) || y % 400 = 0

def daysInMonth (y m : ℤ) : ℤ :=
  if m = 2 then (if isLeapYear y then 29 else 28)
  else if m = 4 || m = 6 || m = 9 || m = 11 then 30
  else 31

/-- A valid calendar date as held by a (non-Invalid) JS Date at UTC midnight. -/
structure JSDate where
  year : ℤ
  month : ℤ
  day : ℤ
deriving DecidableEq, Repr

/-- Days since 1970-01-01 of a civil date (proleptic Gregorian). -/
def daysFromCivil (y m d : ℤ) : ℤ :=
  let y2 := if m ≤ 2 then y - 1 else y
  let era := Int.fdiv y2 400
  let yoe := y2 - era * 400
  let mp := if m ≤ 2 then m + 9 else m - 3
  let doy := (153 * mp + 2) / 5 + d - 1
  let doe := yoe * 365 + yoe / 4 - yoe / 100 + doy
  era * 146097 + doe - 719468

/-- JS Date.prototype.getTime for a date at UTC midnight, in milliseconds. -/
def dateMs (dt : JSDate) : ℤ :=
  86400000 * daysFromCivil dt.year dt.month dt.day

def isDigit (c : Char) : Bool := '0' ≤ c && c ≤ '9'

def digitVal (c : Char) : ℤ := (c.toNat : ℤ) - 48

/-- Match the digit block of the heading regexp: four digits, a dash, two
digits, a dash, two digits, anything afterwards; then apply the validity
check that new Date("YYYY-MM-DDT00:00:00Z") performs (Invalid Date for an
out-of-range month or day). -/
def parseISODateChars : List Char → Option JSDate
  | y1 :: y2 :: y3 :: y4 :: '-' :: m1 :: m2 :: '-' :: d1 :: d2 :: _ =>
    if isDigit y1 && isDigit y2 && isDigit y3 && isDigit y4 &&
       isDigit m1 && isDigit m2 && isDigit d1 && isDigit d2 then
      let y := digitVal y1 * 1000 + digitVal y2 * 100 + digitVal y3 * 10 + digitVal y4
      let m := digitVal m1 * 10 + digitVal m2
      let d := digitVal d1 * 10 + digitVal d2
      if 1 ≤ m && m ≤ 12 && 1 ≤ d && d ≤ daysInMonth y m then some ⟨y, m, d⟩
      else none
    else none
  | _ => none

/-- archive.js parseDateFromHeading: the heading must match the anchored
regexp hash-hash, one or more whitespace, capture of YYYY-MM-DD; the captured
text is then turned into a Date at UTC midnight, with null for no match or an
Invalid Date. -/
def parseDateFromHeading (heading : String) : Option JSDate :=
  match heading.data with
  | '#' :: '#' :: rest =>
    if (rest.takeWhile isJsWs).isEmpty then none
    else parseISODateChars (rest.dropWhile isJsWs)
  | _ => none

def pad2 (n : ℤ) : String :=
  if n < 10 then "0" ++ toString n.toNat else toString n.toNat

def pad4 (n : ℤ) : String :=
  if n < 10 then "000" ++ toString n.toNat
  else if n < 100 then "00" ++ toString n.toNat
  else if n < 1000 then "0" ++ toString n.toNat
  else toString n.toNat

/-- Date.prototype.toISOString().slice(0, 10) for a valid UTC-midnight date
in years 0..9999 (the only dates the heading regexp can produce). -/
def toISODate (dt : JSDate) : String :=
  pad4 dt.year ++ "-" ++ pad2 dt.month ++ "-" ++ pad2 dt.day

/-! ### Log-section parsing (archive.js parseLogSections) -/

structure LogSection where
  heading : String
  content : String
deriving DecidableEq, Repr

/-- The section-accumulation loop of parseLogSections: a heading line (one
starting with hash-hash-space) opens a new section; other lines are appended
to the current section when one is open and dropped otherwise; the section
content is the accumulated lines joined by newline and trimmed.  The
accumulator keeps the current section's lines in reverse. -/
def collectSections : List String → Option (String × List String) → List LogSection
  | [], none => []
  | [], some (h, acc) => [⟨h, jsTrim (String.intercalate "\n" acc.reverse)⟩]
  | l :: rest, cur =>
    if strStartsWith l "## " then
      (match cur with
       | some (h, acc) => [⟨h, jsTrim (String.intercalate "\n" acc.reverse)⟩]
       | none => []) ++ collectSections rest (some (l, [l]))
    else
      match cur with
      | some (h, acc) => collectSections rest (some (h, l :: acc))
      | none => collectSections rest none

/-- archive.js parseLogSections: the header is everything up to and including
the first line trimming to the three-dash separator (empty when absent), the
rest of the lines are segmented into sections. -/
def parseLogSections (content : String) : String × List LogSection :=
  let lines := splitLines content
  match lines.findIdx? (fun l => jsTrim l = "---") with
  | some i => (String.intercalate "\n" (lines.take (i + 1)),
               collectSections (lines.drop (i + 1)) none)
  | none => ("", collectSections lines none)

/-! ### Classification and the archive run (archive.js archiveLogEntries) -/

/-- archive.js getCutoffDate: the current time minus the retention period,
as a raw millisecond timestamp. -/
def getCutoffDate (nowMs retentionDays : ℤ) : ℤ :=
  nowMs - retentionDays * 86400000

/-- The expiry test of the classification loop: a section with a parseable
heading date is archived when its Date is strictly before the cutoff. -/
def sectionExpired (cutoffMs : ℤ) (s : LogSection) : Bool :=
  match parseDateFromHeading s.heading with
  | some d => decide (dateMs d < cutoffMs)
  | none => false

/-- The archive bucket key of a section, when its heading parses. -/
def sectionKey (s : LogSection) : Option String :=
  (parseDateFromHeading s.heading).map toISODate

/-- JS Map insertion as used on archiveByDate: a new date key is appended at
the end (Map iteration order is insertion order), the content is pushed onto
the entry list of an existing key. -/
def pushBucket : List (String × List String) → String → String → List (String × List String)
  | [], k, v => [(k, [v])]
  | (k', vs) :: rest, k, v =>
    if k' = k then (k', vs ++ [v]) :: rest
    else (k', vs) :: pushBucket rest k v

structure Classified where
  buckets : List (String × List String)
  keep : List String
  count : Nat
deriving DecidableEq, Repr

/-- One iteration of the classification loop in archiveLogEntries. -/
def classifyStep (cutoffMs : ℤ) (st : Classified) (s : LogSection) : Classified :=
  match parseDateFromHeading s.heading with
  | some d =>
    if dateMs d < cutoffMs then
      { buckets := pushBucket st.buckets (toISODate d) s.content,
        keep := st.keep, count := st.count + 1 }
    else
      { st with keep := st.keep ++ [s.content] }
  | none => { st with keep := st.keep ++ [s.content] }

/-- The whole classification loop of archiveLogEntries. -/
def classifySections (cutoffMs : ℤ) (sections : List LogSection) : Classified :=
  sections.foldl (classifyStep cutoffMs) ⟨[], [], 0⟩

/-- A filesystem write performed by one archive run, in program order. -/
inductive WriteEvent where
  | bucketWrite (dateStr : String) (content : String)
  | liveWrite (content : String)
deriving DecidableEq, Repr

structure ArchiveResult where
  events : List WriteEvent
  archiveWrites : List (String × String)
  logWrite : Option String
  archived : Nat
  beforeLines : Nat
  afterLines : Nat
deriving DecidableEq, Repr

/-- The content flushed to one per-date archive file: the new entries joined
by a blank line, with any pre-existing archive content appended after another
blank line (the empty string counts as no existing content, as in JS where
the empty string is falsy). -/
def flushBucket (existing : String) (entries : List String) : String :=
  String.intercalate "\n\n" entries ++
    (if existing = "" then "" else "\n\n" ++ existing)

/-- archive.js archiveLogEntries as a pure function.  Inputs: the live log
content, the retention period, the current time in milliseconds, and the
pre-existing archive-file content for each date string (empty string when the
file is absent).  The events field lists the writes in the order the source
performs them: all per-date bucket writes first (in Map iteration order),
then the live-log rewrite; when nothing is expired the function returns
before writing anything. -/
def archiveLogEntries (content : String) (retentionDays nowMs : ℤ)
    (existingArchive : String → String) : ArchiveResult :=
  let beforeLines := (splitLines content).length
  let cutoff := getCutoffDate nowMs retentionDays
  let parsed := parseLogSections content
  let cl := classifySections cutoff parsed.2
  if cl.count = 0 then
    { events := [], archiveWrites := [], logWrite := none, archived := 0,
      beforeLines := beforeLines, afterLines := beforeLines }
  else
    let writes := cl.buckets.map (fun p => (p.1, flushBucket (existingArchive p.1) p.2))
    let newContent :=
      if cl.keep.length > 0 then
        parsed.1 ++ "\n\n" ++ String.intercalate "\n\n" cl.keep ++ "\n"
      else parsed.1 ++ "\n"
    { events := writes.map (fun p => WriteEvent.bucketWrite p.1 p.2) ++
        [WriteEvent.liveWrite newContent],
      archiveWrites := writes, logWrite := some newContent, archived := cl.count,
      beforeLines := beforeLines, afterLines := (splitLines newContent).length }

/-! ### Completed-sprint sweep (archive.js isSprintCompleted)

The sweep tests the whole file content against the multiline case-insensitive
regexp anchored pattern: hash-hash, one or more whitespace, Status colon,
optional whitespace, COMPLETED or ARCHIVED, optional whitespace, line end.
A match may start at the beginning of the content or after any line
terminator; whitespace runs inside the pattern may themselves span line
terminators. -/

/-- ASCII case folding: the canonicalisation a JS regexp with the i flag and
without the u flag applies to the ASCII letters of this pattern (non-ASCII
characters never fold onto ASCII ones). -/
def foldLower (c : Char) : Char :=
  match c with
  | 'A' => 'a' | 'B' => 'b' | 'C' => 'c' | 'D' => 'd' | 'E' => 'e'
  | 'F' => 'f' | 'G' => 'g' | 'H' => 'h' | 'I' => 'i' | 'J' => 'j'
  | 'K' => 'k' | 'L' => 'l' | 'M' => 'm' | 'N' => 'n' | 'O' => 'o'
  | 'P' => 'p' | 'Q' => 'q' | 'R' => 'r' | 'S' => 's' | 'T' => 't'
  | 'U' => 'u' | 'V' => 'v' | 'W' => 'w' | 'X' => 'x' | 'Y' => 'y'
  | 'Z' => 'z'
  | c => c

/-- Consume a literal pattern (given lowercase) case-insensitively from the
front of the input, returning the remainder on success. -/
def dropCI : List Char → List Char → Option (List Char)
  | [], cs => some cs
  | _ :: _, [] => none
  | p :: ps, c :: cs => if foldLower c = p then dropCI ps cs else none

/-- The trailing part of the status pattern: optional whitespace followed by
a line end (end of input, or a position before a line terminator; the
optional-whitespace loop may stop at any point, so it succeeds exactly when
the input is all whitespace or its leading whitespace contains a line
terminator). -/
def statusTail (cs : List Char) : Bool :=
  (cs.dropWhile isJsWs).isEmpty || (cs.takeWhile isJsWs).any isLineTerm

/-- Match the status pattern at a fixed position. -/
def statusBody (rest : List Char) : Bool :=
  if (rest.takeWhile isJsWs).isEmpty then false
  else
    match dropCI "status:".data (rest.dropWhile isJsWs) with
    | none => false
    | some r2 =>
      let r3 := r2.dropWhile isJsWs
      (match dropCI "completed".data r3 with
       | some r4 => statusTail r4
       | none => false) ||
      (match dropCI "archived".data r3 with
       | some r4 => statusTail r4
       | none => false)

/-- Match the status pattern at a fixed position. -/
def statusMatchAt (cs : List Char) : Bool :=
  match cs with
  | c1 :: c2 :: rest => c1 = '#' && c2 = '#' && statusBody rest
  | _ => false

/-- Scan for a match at the start of the content or after a line terminator
(the positions at which the multiline anchor applies). -/
def sweepGo : List Char → Bool → Bool
  | [], atStart => atStart && statusMatchAt []
  | c :: rest, atStart => (atStart && statusMatchAt (c :: rest)) || sweepGo rest (isLineTerm c)

/-- archive.js isSprintCompleted: test the content against the completion
status regexp. -/
def isSprintCompleted (content : String) : Bool :=
  sweepGo content.data true

/-- Case-insensitive equality of strings under ASCII folding. -/
def ciEq (a b : String) : Bool :=
  a.data.map foldLower == b.data.map foldLower

/-- Modelled from the claim wording, for comparison with isSprintCompleted:
some line of the content (split at newlines), after trimming, equals
case-insensitively one of the two status markers. -/
def specSweepMatch (content : String) : Bool :=
  (splitLines content).any (fun l =>
    ciEq (jsTrim l) "## Status: COMPLETED" || ciEq (jsTrim l) "## Status: ARCHIVED")

/-! ### Retention-policy loading (archive.js loadConfig)

JSON numbers are JS doubles; they are embedded as rationals extended with the
two infinities (which JSON.parse produces for overflowing literals) and NaN.
The comparisons mirror the JS relational operators (false on NaN). -/

inductive JSNum where
  | fin (q : ℚ)
  | posInf
  | negInf
  | nan
deriving DecidableEq, Repr

def numLe : JSNum → JSNum → Bool
  | .nan, _ => false
  | _, .nan => false
  | .negInf, _ => true
  | _, .negInf => false
  | .fin a, .fin b => decide (a ≤ b)
  | .fin _, .posInf => true
  | .posInf, .posInf => true
  | .posInf, .fin _ => false

def numLt : JSNum → JSNum → Bool
  | .nan, _ => false
  | _, .nan => false
  | .negInf, .negInf => false
  | .negInf, _ => true
  | _, .negInf => false
  | .fin a, .fin b => decide (a < b)
  | .fin _, .posInf => true
  | .posInf, _ => false

def numGe (a b : JSNum) : Bool := numLe b a

def numGt (a b : JSNum) : Bool := numLt b a

def isFiniteNum : JSNum → Bool
  | .fin _ => true
  | _ => false

/-- Math.floor, used only under a finiteness guard. -/
def jsFloor : JSNum → ℤ
  | .fin q => ⌊q⌋
  | _ => 0

/-- A JavaScript value as produced by JSON.parse, plus undefined (the result
of reading an absent property). -/
inductive JVal where
  | vnull
  | vundefined
  | vbool (b : Bool)
  | vnum (n : JSNum)
  | vstr (s : String)
  | varr (elems : List JVal)
  | vobj (fields : List (String × JVal))

/-- Object property lookup; JSON.parse keeps the last of duplicate keys. -/
def lookupLast (fields : List (String × JVal)) (k : String) : Option JVal :=
  fields.foldl (fun acc p => if p.1 = k then some p.2 else acc) none

/-- Property read on a non-null, non-undefined value: objects look up the
key, primitives and arrays yield undefined for these key names. -/
def jsMember (v : JVal) (k : String) : JVal :=
  match v with
  | .vobj fs => (lookupLast fs k).getD .vundefined
  | _ => .vundefined

/-- Strict equality against the boolean true. -/
def isTrueVal : JVal → Bool
  | .vbool true => true
  | _ => false

/-- The state of memory-strategies.json as seen by loadConfig: the file is
absent, present but not valid JSON, or parses to a value. -/
inductive ConfigFile where
  | absent
  | invalidJson
  | parsed (v : JVal)

structure RetentionConfig where
  log_retention_days : ℤ
  archive_completed_sprints : Bool
  warn_tier1_tokens : JSNum
  warn_log_lines : JSNum
deriving DecidableEq, Repr

def defaultConfig : RetentionConfig :=
  { log_retention_days := 14, archive_completed_sprints := true,
    warn_tier1_tokens := .fin 4000, warn_log_lines := .fin 500 }

/-- The retention-days validation of loadConfig: a finite number between 1
and 365 is floored, anything else falls back to the default 14. -/
def fieldRetentionDays (x : JVal) : ℤ :=
  match x with
  | .vnum n =>
    if numGe n (.fin 1) && numLe n (.fin 365) && isFiniteNum n then jsFloor n
    else 14
  | _ => 14

/-- The warning-threshold validation of loadConfig: a number strictly greater
than 0 is kept, anything else falls back to the given default. -/
def fieldWarn (dflt : ℚ) (x : JVal) : JSNum :=
  match x with
  | .vnum n => if numGt n (.fin 0) then n else .fin dflt
  | _ => .fin dflt

/-- archive.js loadConfig.  An absent file and a JSON parse failure both
yield the default object.  Property access on a parsed null value throws a
TypeError inside the try block, which the catch turns into the defaults.
Otherwise each field is computed exactly as in the source: retention days
must be a finite number between 1 and 365 and is floored, the two warning
thresholds must be numbers strictly greater than 0, and the sprint flag is
the strict comparison of the field with true.  The result carries exactly
the four known fields by construction. -/
def loadConfig : ConfigFile → RetentionConfig
  | .absent => defaultConfig
  | .invalidJson => defaultConfig
  | .parsed .vnull => defaultConfig
  | .parsed .vundefined => defaultConfig
  | .parsed v =>
    { log_retention_days := fieldRetentionDays (jsMember v "log_retention_days"),
      archive_completed_sprints := isTrueVal (jsMember v "archive_completed_sprints"),
      warn_tier1_tokens := fieldWarn 4000 (jsMember v "warn_tier1_tokens"),
      warn_log_lines := fieldWarn 500 (jsMember v "warn_log_lines") }

/-! ### Line-presence append (files.js ensureLineInFile) -/

/-- files.js ensureLineInFile as a pure function over the current file state
(none when the file does not exist) and the line.  Returns whether the line
was reported as added, and the content written when a write happens. -/
def ensureLineInFile (existing : Option String) (line : String) : Bool × Option String :=
  let ex := existing.getD ""
  let trimmedLine := jsTrim line
  let lns := (splitLines ex).map jsTrim
  if lns.contains trimmedLine then (false, none)
  else
    let sep := if ex.length > 0 && ¬ strEndsWith ex "\n" then "\n" else ""
    (true, some (ex ++ sep ++ trimmedLine ++ "\n"))

/-! ### Path containment (paths.js resolveMemoryPath)

Node's posix path.resolve of an absolute base and a relative path: join,
split at slashes, drop empty and dot segments, let a dot-dot segment pop the
last collected segment (clamping at the root), and rejoin.  The non-Windows
branch of the containment check is modelled (the string comparison is
case-sensitive and the separator is the slash). -/

def splitSlash (p : String) : List String :=
  splitCharAux '/' p.data []

def normSegs (segs : List String) : List String :=
  segs.foldl (fun acc seg =>
    if seg = "" || seg = "." then acc
    else if seg = ".." then acc.dropLast
    else acc ++ [seg]) []

/-- Normalise an absolute posix path. -/
def normAbs (p : String) : String :=
  "/" ++ String.intercalate "/" (normSegs (splitSlash p))

/-- path.resolve(root, rel) for an absolute root. -/
def posixResolve (root rel : String) : String :=
  if strStartsWith rel "/" then normAbs rel else normAbs (root ++ "/" ++ rel)

inductive PathError where
  | invalidArg
  | escape
deriving DecidableEq, Repr

def addSep (p : String) : String :=
  if strEndsWith p "/" then p else p ++ "/"

/-- paths.js resolveMemoryPath: reject empty (after trimming) arguments with
a TypeError, resolve the relative path against the root, and fail with an
escape error unless the resolved path equals the normalised root or extends
it past a separator. -/
def resolveMemoryPath (projectRoot relativePath : String) : Except PathError String :=
  if jsTrim projectRoot = "" then .error .invalidArg
  else if jsTrim relativePath = "" then .error .invalidArg
  else
    let resolved := posixResolve projectRoot relativePath
    let normalizedRoot := normAbs projectRoot
    if strIsPrefixOf (addSep normalizedRoot) resolved then .ok resolved
    else if resolved == normalizedRoot then .ok resolved
    else .error .escape

/-- The containment notion of the claim: the resolved absolute path is equal
to, or nested under (extends past a path separator), the normalised root. -/
def containedInRoot (root resolved : String) : Bool :=
  resolved == normAbs root || strIsPrefixOf (addSep (normAbs root)) resolved

/-! ### Helper lemmas -/

theorem isJsWs_foldLower (c : Char) : isJsWs (foldLower c) = isJsWs c := by
  unfold foldLower
  split <;> rfl

theorem ws_of_lineTerm {c : Char} (h : isLineTerm c = true) : isJsWs c = true := by
  unfold isLineTerm at h
  simp only [Bool.or_eq_true, decide_eq_true_eq] at h
  rcases h with ((h | h) | h) | h <;> subst h <;> rfl

theorem takeWhile_append_all {α : Type} {p : α → Bool} {l1 l2 : List α}
    (h : ∀ a ∈ l1, p a = true) :
    (l1 ++ l2).takeWhile p = l1 ++ l2.takeWhile p := by
  induction l1 with
  | nil => simp
  | cons a l ih =>
    have ha : p a = true := h a (by simp)
    simp [List.takeWhile_cons, ha, ih (fun x hx => h x (by simp [hx]))]

theorem dropWhile_append_all {α : Type} {p : α → Bool} {l1 l2 : List α}
    (h : ∀ a ∈ l1, p a = true) :
    (l1 ++ l2).dropWhile p = l2.dropWhile p := by
  induction l1 with
  | nil => simp
  | cons a l ih =>
    have ha : p a = true := h a (by simp)
    simp [List.dropWhile_cons, ha, ih (fun x hx => h x (by simp [hx]))]

theorem dropCI_eq_some {pat cs r : List Char} :
    dropCI pat cs = some r ↔ ∃ q, cs = q ++ r ∧ q.map foldLower = pat := by
  induction pat generalizing cs with
  | nil =>
    simp only [dropCI, Option.some_inj]
    constructor
    · rintro rfl; exact ⟨[], rfl, rfl⟩
    · rintro ⟨q, h1, h2⟩
      have hq : q = [] := by simpa using h2
      subst hq; simpa using h1
  | cons p ps ih =>
    cases cs with
    | nil =>
      simp only [dropCI]
      constructor
      · intro h; cases h
      · rintro ⟨q, h1, h2⟩
        cases q with
        | nil => simp at h2
        | cons x q' => simp at h1
    | cons c cs' =>
      simp only [dropCI]
      by_cases hf : foldLower c = p
      · rw [if_pos hf, ih]
        constructor
        · rintro ⟨q, rfl, hq⟩
          exact ⟨c :: q, rfl, by simp [hq, hf]⟩
        · rintro ⟨q, h1, hq⟩
          cases q with
          | nil => simp at hq
          | cons x q' =>
            rw [List.cons_append, List.cons.injEq] at h1
            obtain ⟨rfl, h1⟩ := h1
            simp only [List.map_cons, List.cons.injEq] at hq
            exact ⟨q', h1, hq.2⟩
      · rw [if_neg hf]
        constructor
        · intro h; cases h
        · rintro ⟨q, h1, hq⟩
          cases q with
          | nil => simp at hq
          | cons x q' =>
            rw [List.cons_append, List.cons.injEq] at h1
            obtain ⟨rfl, h1⟩ := h1
            simp only [List.map_cons, List.cons.injEq] at hq
            exact absurd hq.1 hf

theorem dropCI_append {pat q : List Char} (r : List Char) (h : q.map foldLower = pat) :
    dropCI pat (q ++ r) = some r :=
  dropCI_eq_some.mpr ⟨q, rfl, h⟩

theorem head_not_ws_of_lower {q ps : List Char} {p0 : Char}
    (h : q.map foldLower = p0 :: ps) (hp : isJsWs p0 = false) :
    ∃ c q', q = c :: q' ∧ isJsWs c = false := by
  cases q with
  | nil => simp at h
  | cons c q' =>
    simp only [List.map_cons, List.cons.injEq] at h
    exact ⟨c, q', rfl, by rw [← isJsWs_foldLower, h.1]; exact hp⟩

theorem statusTail_iff {cs : List Char} :
    statusTail cs = true ↔
      ∃ w rest, cs = w ++ rest ∧ (∀ c ∈ w, isJsWs c = true) ∧
        (rest = [] ∨ ∃ c r2, rest = c :: r2 ∧ isLineTerm c = true) := by
  unfold statusTail
  simp only [Bool.or_eq_true, List.isEmpty_iff, List.any_eq_true]
  constructor
  · rintro (hdrop | ⟨c, hc, hlt⟩)
    · refine ⟨cs.takeWhile isJsWs, [], ?_, fun c h => List.mem_takeWhile_imp h, Or.inl rfl⟩
      conv_lhs => rw [← List.takeWhile_append_dropWhile (p := isJsWs) (l := cs)]
      rw [hdrop]
    · obtain ⟨l1, l2, heq⟩ := List.append_of_mem hc
      refine ⟨l1, c :: (l2 ++ cs.dropWhile isJsWs), ?_, ?_, Or.inr ⟨c, _, rfl, hlt⟩⟩
      · conv_lhs => rw [← List.takeWhile_append_dropWhile (p := isJsWs) (l := cs)]
        rw [heq]; simp
      · intro x hx
        exact List.mem_takeWhile_imp (l := cs) (heq ▸ (by simp [hx]))
  · rintro ⟨w, rest, rfl, hw, hrest | ⟨c, r2, rfl, hlt⟩⟩
    · subst hrest; left
      rw [dropWhile_append_all hw]; rfl
    · right
      have hcws : isJsWs c = true := ws_of_lineTerm hlt
      rw [takeWhile_append_all hw]
      exact ⟨c, by simp [List.takeWhile_cons, hcws], hlt⟩

/-- The declarative shape of the status pattern after the two hash marks:
a nonempty whitespace run, a case-insensitive Status colon, a whitespace
run, a case-insensitive COMPLETED or ARCHIVED, a whitespace run, then the
end of the input or a line terminator. -/
def StatusBodyShape (rest : List Char) : Prop :=
  ∃ w1 stat w2 kw tl,
    rest = w1 ++ stat ++ w2 ++ kw ++ tl ∧
    w1 ≠ [] ∧ (∀ c ∈ w1, isJsWs c = true) ∧
    stat.map foldLower = "status:".data ∧
    (∀ c ∈ w2, isJsWs c = true) ∧
    (kw.map foldLower = "completed".data ∨ kw.map foldLower = "archived".data) ∧
    (∃ w3 r2, tl = w3 ++ r2 ∧ (∀ c ∈ w3, isJsWs c = true) ∧
      (r2 = [] ∨ ∃ c r3, r2 = c :: r3 ∧ isLineTerm c = true))

theorem statusBody_iff {rest : List Char} :
    statusBody rest = true ↔ StatusBodyShape rest := by
  unfold statusBody
  constructor
  · intro h
    by_cases hemp : (rest.takeWhile isJsWs).isEmpty = true
    · rw [if_pos hemp] at h; cases h
    · rw [if_neg hemp] at h
      rcases h2 : dropCI "status:".data (rest.dropWhile isJsWs) with _ | r2
      · rw [h2] at h; cases h
      · rw [h2] at h
        obtain ⟨stat, hsplit, hstat⟩ := dropCI_eq_some.mp h2
        rw [Bool.or_eq_true] at h
        have hkw : ∃ kw tl, r2.dropWhile isJsWs = kw ++ tl ∧
            (kw.map foldLower = "completed".data ∨ kw.map foldLower = "archived".data) ∧
            statusTail tl = true := by
          rcases h with h | h
          · rcases h3 : dropCI "completed".data (r2.dropWhile isJsWs) with _ | r4
            · rw [h3] at h; cases h
            · rw [h3] at h
              obtain ⟨kw, hk1, hk2⟩ := dropCI_eq_some.mp h3
              exact ⟨kw, r4, hk1, Or.inl hk2, h⟩
          · rcases h3 : dropCI "archived".data (r2.dropWhile isJsWs) with _ | r4
            · rw [h3] at h; cases h
            · rw [h3] at h
              obtain ⟨kw, hk1, hk2⟩ := dropCI_eq_some.mp h3
              exact ⟨kw, r4, hk1, Or.inr hk2, h⟩
        obtain ⟨kw, tl, hk1, hk2, hk3⟩ := hkw
        obtain ⟨w3, r3, ht1, ht2, ht3⟩ := statusTail_iff.mp hk3
        subst ht1
        refine ⟨rest.takeWhile isJsWs, stat, r2.takeWhile isJsWs, kw, w3 ++ r3, ?_,
          by simpa using hemp, fun c hc => List.mem_takeWhile_imp hc, hstat,
          fun c hc => List.mem_takeWhile_imp hc, hk2, ⟨w3, r3, rfl, ht2, ht3⟩⟩
        calc rest = rest.takeWhile isJsWs ++ rest.dropWhile isJsWs :=
              (List.takeWhile_append_dropWhile (p := isJsWs) (l := rest)).symm
          _ = rest.takeWhile isJsWs ++ (stat ++ r2) := by rw [hsplit]
          _ = rest.takeWhile isJsWs ++
              (stat ++ (r2.takeWhile isJsWs ++ r2.dropWhile isJsWs)) := by
              rw [List.takeWhile_append_dropWhile]
          _ = rest.takeWhile isJsWs ++
              (stat ++ (r2.takeWhile isJsWs ++ (kw ++ (w3 ++ r3)))) := by rw [hk1]
          _ = rest.takeWhile isJsWs ++ stat ++ r2.takeWhile isJsWs ++ kw ++ (w3 ++ r3) := by
              simp [List.append_assoc]
  · rintro ⟨w1, stat, w2, kw, tl, rfl, hw1ne, hw1, hstat, hw2, hkw, w3, r2, rfl, hw3, hr2⟩
    obtain ⟨s0, stat', rfl, hs0⟩ := head_not_ws_of_lower hstat (by rfl)
    have hkwhead : ∃ k0 kw', kw = k0 :: kw' ∧ isJsWs k0 = false := by
      rcases hkw with h | h
      · exact head_not_ws_of_lower h (by rfl)
      · exact head_not_ws_of_lower h (by rfl)
    obtain ⟨k0, kw', rfl, hk0⟩ := hkwhead
    simp only [List.append_assoc, List.cons_append]
    have htake : (w1 ++ s0 :: (stat' ++ (w2 ++ (k0 :: (kw' ++ (w3 ++ r2)))))).takeWhile isJsWs
        = w1 := by
      rw [show w1 ++ s0 :: (stat' ++ (w2 ++ (k0 :: (kw' ++ (w3 ++ r2))))) =
            w1 ++ (s0 :: (stat' ++ (w2 ++ (k0 :: (kw' ++ (w3 ++ r2)))))) from rfl,
          takeWhile_append_all hw1]
      simp [List.takeWhile_cons, hs0]
    have hdrop : (w1 ++ s0 :: (stat' ++ (w2 ++ (k0 :: (kw' ++ (w3 ++ r2)))))).dropWhile isJsWs
        = s0 :: (stat' ++ (w2 ++ (k0 :: (kw' ++ (w3 ++ r2))))) := by
      rw [dropWhile_append_all hw1]
      simp [List.dropWhile_cons, hs0]
    rw [htake, hdrop, if_neg (by simp [List.isEmpty_iff, hw1ne])]
    rw [show s0 :: (stat' ++ (w2 ++ (k0 :: (kw' ++ (w3 ++ r2))))) =
          (s0 :: stat') ++ (w2 ++ (k0 :: (kw' ++ (w3 ++ r2)))) by simp]
    rw [dropCI_append _ hstat]
    have hdrop2 : (w2 ++ (k0 :: (kw' ++ (w3 ++ r2)))).dropWhile isJsWs =
        (k0 :: kw') ++ (w3 ++ r2) := by
      rw [dropWhile_append_all hw2]
      simp [List.dropWhile_cons, hk0]
    simp only [hdrop2]
    have htail : statusTail (w3 ++ r2) = true :=
      statusTail_iff.mpr ⟨w3, r2, rfl, hw3, hr2⟩
    rcases hkw with h | h
    · rw [dropCI_append _ h]
      simp [htail]
    · rw [dropCI_append _ h]
      simp [htail]

/-- The declarative shape of a full status match: two hash marks followed by
the body shape. -/
def StatusStanza (cs : List Char) : Prop :=
  ∃ rest, cs = '#' :: '#' :: rest ∧ StatusBodyShape rest

theorem statusMatchAt_iff {cs : List Char} :
    statusMatchAt cs = true ↔ StatusStanza cs := by
  unfold statusMatchAt StatusStanza
  match cs with
  | [] =>
    simp only [Bool.false_eq_true, false_iff]
    rintro ⟨rest, h, _⟩; cases h
  | [c1] =>
    simp only [Bool.false_eq_true, false_iff]
    rintro ⟨rest, h, _⟩; cases h
  | c1 :: c2 :: rest =>
    simp only [Bool.and_eq_true, decide_eq_true_eq]
    constructor
    · rintro ⟨⟨rfl, rfl⟩, hb⟩
      exact ⟨rest, rfl, statusBody_iff.mp hb⟩
    · rintro ⟨rest', heq, hb⟩
      rw [List.cons.injEq, List.cons.injEq] at heq
      obtain ⟨rfl, rfl, rfl⟩ := heq
      exact ⟨⟨rfl, rfl⟩, statusBody_iff.mpr hb⟩

theorem sweepGo_iff (cs : List Char) (st : Bool) :
    sweepGo cs st = true ↔
      (st = true ∧ statusMatchAt cs = true) ∨
      ∃ p c suf, cs = p ++ c :: suf ∧ isLineTerm c = true ∧ statusMatchAt suf = true := by
  induction cs generalizing st with
  | nil =>
    simp only [sweepGo]
    constructor
    · intro h
      rw [Bool.and_eq_true] at h
      exact absurd h.2 (by simp [statusMatchAt])
    · rintro (⟨_, h⟩ | ⟨p, c, suf, h, _, _⟩)
      · exact absurd h (by simp [statusMatchAt])
      · exact absurd h (by simp)
  | cons a l ih =>
    simp only [sweepGo, Bool.or_eq_true, Bool.and_eq_true, ih]
    constructor
    · rintro (⟨hst, hm⟩ | ⟨hlt, hm⟩ | ⟨p, c, suf, rfl, hlt, hm⟩)
      · exact Or.inl ⟨hst, hm⟩
      · exact Or.inr ⟨[], a, l, rfl, hlt, hm⟩
      · exact Or.inr ⟨a :: p, c, suf, rfl, hlt, hm⟩
    · rintro (⟨hst, hm⟩ | ⟨p, c, suf, heq, hlt, hm⟩)
      · exact Or.inl ⟨hst, hm⟩
      · cases p with
        | nil =>
          rw [List.nil_append, List.cons.injEq] at heq
          obtain ⟨rfl, rfl⟩ := heq
          exact Or.inr (Or.inl ⟨hlt, hm⟩)
        | cons x p' =>
          rw [List.cons_append, List.cons.injEq] at heq
          obtain ⟨rfl, rfl⟩ := heq
          exact Or.inr (Or.inr ⟨p', c, suf, rfl, hlt, hm⟩)

/-- The declarative reading of the whole-content sweep: at the start of the
content, or directly after a line terminator, the status stanza occurs. -/
def SweepMatches (content : String) : Prop :=
  ∃ pre suf, content.data = pre ++ suf ∧
    (pre = [] ∨ ∃ p c, pre = p ++ [c] ∧ isLineTerm c = true) ∧ StatusStanza suf

theorem isSprintCompleted_iff (content : String) :
    isSprintCompleted content = true ↔ SweepMatches content := by
  unfold isSprintCompleted SweepMatches
  rw [sweepGo_iff]
  constructor
  · rintro (⟨_, hm⟩ | ⟨p, c, suf, heq, hlt, hm⟩)
    · exact ⟨[], content.data, rfl, Or.inl rfl, statusMatchAt_iff.mp hm⟩
    · exact ⟨p ++ [c], suf, by simp [heq], Or.inr ⟨p, c, rfl, hlt⟩,
        statusMatchAt_iff.mp hm⟩
  · rintro ⟨pre, suf, heq, hpre | ⟨p, c, rfl, hlt⟩, hst⟩
    · subst hpre
      rw [List.nil_append] at heq
      exact Or.inl ⟨rfl, heq ▸ statusMatchAt_iff.mpr hst⟩
    · exact Or.inr ⟨p, c, suf, by simp [heq], hlt, statusMatchAt_iff.mpr hst⟩

theorem fieldRetentionDays_bounds (x : JVal) :
    1 ≤ fieldRetentionDays x ∧ fieldRetentionDays x ≤ 365 := by
  match x with
  | .vnull | .vundefined | .vbool _ | .vstr _ | .varr _ | .vobj _ =>
    simp only [fieldRetentionDays]
    exact ⟨by norm_num, by norm_num⟩
  | .vnum n =>
    simp only [fieldRetentionDays]
    by_cases h : (numGe n (.fin 1) && numLe n (.fin 365) && isFiniteNum n) = true
    · rw [if_pos h]
      simp only [Bool.and_eq_true] at h
      obtain ⟨⟨h1, h2⟩, h3⟩ := h
      match n with
      | .fin q =>
        simp only [numGe, numLe, decide_eq_true_eq] at h1 h2
        constructor
        · exact Int.le_floor.mpr (by exact_mod_cast h1)
        · have : (⌊q⌋ : ℚ) ≤ 365 := le_trans (Int.floor_le q) h2
          exact_mod_cast this
      | .posInf => simp [numLe] at h2
      | .negInf => simp [numGe, numLe] at h1
      | .nan => simp [isFiniteNum] at h3
    · rw [if_neg h]; exact ⟨by norm_num, by norm_num⟩

theorem fieldWarn_pos (dflt : ℚ) (hd : 0 < dflt) (x : JVal) :
    numGt (fieldWarn dflt x) (.fin 0) = true := by
  match x with
  | .vnull | .vundefined | .vbool _ | .vstr _ | .varr _ | .vobj _ =>
    simp [fieldWarn, numGt, numLt, hd]
  | .vnum n =>
    simp only [fieldWarn]
    by_cases h : numGt n (.fin 0) = true
    · rw [if_pos h]; exact h
    · rw [if_neg h]; simp [numGt, numLt, hd]

/-! ### Claim theorems -/

/-- C9: For every input (config file absent, unparsable, or containing
arbitrary values of arbitrary types), the loaded retention policy is a
well-formed record of the four known fields: log_retention_days is an
integer between 1 and 365, the two warning thresholds compare strictly
greater than 0, and the sprint flag is a boolean (by the result type); no
unknown key of the file reaches the result, which is built only from the
four known field names. -/
theorem loadConfig_always_wellformed (cf : ConfigFile) :
    1 ≤ (loadConfig cf).log_retention_days ∧
    (loadConfig cf).log_retention_days ≤ 365 ∧
    numGt (loadConfig cf).warn_tier1_tokens (.fin 0) = true ∧
    numGt (loadConfig cf).warn_log_lines (.fin 0) = true := by
  have hgen : ∀ v : JVal,
      1 ≤ fieldRetentionDays (jsMember v "log_retention_days") ∧
      fieldRetentionDays (jsMember v "log_retention_days") ≤ 365 ∧
      numGt (fieldWarn 4000 (jsMember v "warn_tier1_tokens")) (.fin 0) = true ∧
      numGt (fieldWarn 500 (jsMember v "warn_log_lines")) (.fin 0) = true :=
    fun v => ⟨(fieldRetentionDays_bounds _).1, (fieldRetentionDays_bounds _).2,
      fieldWarn_pos _ (by norm_num) _, fieldWarn_pos _ (by norm_num) _⟩
  match cf with
  | .absent => exact ⟨by decide, by decide, by decide, by decide⟩
  | .invalidJson => exact ⟨by decide, by decide, by decide, by decide⟩
  | .parsed .vnull => exact ⟨by decide, by decide, by decide, by decide⟩
  | .parsed .vundefined => exact ⟨by decide, by decide, by decide, by decide⟩
  | .parsed (.vbool b) => simp only [loadConfig]; exact hgen _
  | .parsed (.vnum n) => simp only [loadConfig]; exact hgen _
  | .parsed (.vstr s) => simp only [loadConfig]; exact hgen _
  | .parsed (.varr es) => simp only [loadConfig]; exact hgen _
  | .parsed (.vobj fs) => simp only [loadConfig]; exact hgen _

/-- C2: the claim (and the specification) say the archive_completed_sprints
field falls back to its default true when missing or invalid; the code sets
it to false whenever the parsed field is not exactly the boolean true.  On a
present, valid config file that simply omits the field, the loaded flag is
false, although the loader's own absent-file and parse-failure branches
default the same flag to true. -/
theorem sprint_flag_not_defaulted :
    (loadConfig (.parsed (.vobj []))).archive_completed_sprints = false ∧
    (loadConfig (.parsed (.vobj [("log_retention_days", .vnum (.fin 30))]))).archive_completed_sprints = false ∧
    (loadConfig (.parsed (.vobj [("archive_completed_sprints", .vstr "yes")]))).archive_completed_sprints = false ∧
    (loadConfig .absent).archive_completed_sprints = true ∧
    (loadConfig .invalidJson).archive_completed_sprints = true :=
  ⟨rfl, rfl, rfl, rfl, rfl⟩

/-- C10 counterexample: on an existing file whose content has no line
trimming to the empty string, passing a line that trims to empty appends it
and reports added, contradicting the claim that such a call always reports
unchanged with no write. -/
theorem ensureLineInFile_blank_cex :
    jsTrim " " = "" ∧
    ensureLineInFile (some "abc") " " = (true, some "abc\n\n") ∧
    ensureLineInFile (some "abc") " " ≠ ((false : Bool), (none : Option String)) := by
  refine ⟨by decide, by decide, by decide⟩

/-- C10 amended: for a line trimming to the empty string, the operation
reports unchanged and performs no write exactly when some line of the
existing content (the empty content when the file is absent) trims to the
empty string; in particular an absent file is never created, because
splitting the empty content yields one line that trims to empty. -/
theorem ensureLineInFile_blank_iff (existing : Option String) (line : String)
    (h : jsTrim line = "") :
    (ensureLineInFile existing line = (false, none) ↔
      ((splitLines (existing.getD "")).map jsTrim).contains "" = true) ∧
    ensureLineInFile none line = (false, none) := by
  constructor
  · unfold ensureLineInFile
    rw [h]
    by_cases hc : ((splitLines (existing.getD "")).map jsTrim).contains "" = true
    · simp [hc]
    · simp [hc]
  · unfold ensureLineInFile
    rw [h]
    rfl

theorem ensureLineInFile_blank_iff_witness :
    jsTrim " " = "" ∧ ensureLineInFile (some "a\n\nb") " " = (false, none) :=
  ⟨by decide, (ensureLineInFile_blank_iff (some "a\n\nb") " " (by decide)).1.mpr (by decide)⟩

/-- C5 counterexample: the sweep is not trimmed-equality matching.  The
content consisting of the single line Status colon COMPLETED with no space
after the colon is matched by the code but its only line does not trim to
either marker; conversely a line with leading whitespace trims to the
marker but is not matched by the code, whose pattern is anchored at the
line start. -/
theorem sprint_sweep_trimmed_cex :
    isSprintCompleted "## Status:COMPLETED" = true ∧
    specSweepMatch "## Status:COMPLETED" = false ∧
    isSprintCompleted "  ## Status: COMPLETED" = false ∧
    specSweepMatch "  ## Status: COMPLETED" = true := by
  refine ⟨by decide, by decide, by decide, by decide⟩

/-- C5 amended: the sweep matches a file exactly when, at the start of the
content or directly after a line terminator, the content carries two hash
marks, one or more whitespace characters, Status colon (case-insensitive),
optional whitespace, COMPLETED or ARCHIVED (case-insensitive), optional
whitespace, and then a line end; a file containing only an IN_PROGRESS
status is never matched. -/
theorem sprint_sweep_characterisation :
    (∀ content : String, isSprintCompleted content = true ↔ SweepMatches content) ∧
    isSprintCompleted "# Sprint 002\n\n## Status: IN_PROGRESS\nWorking." = false :=
  ⟨isSprintCompleted_iff, by decide⟩

theorem sprint_sweep_characterisation_witness :
    SweepMatches "x\n## status: archived" :=
  (sprint_sweep_characterisation.1 "x\n## status: archived").mp (by decide)

/-- Modelled from the spec for comparison with the code (claim C1): a
date-granularity cutoff, the current day number minus the retention period,
with a section expired exactly when its date falls on a strictly earlier
day. -/
def specExpired (nowMs retentionDays : ℤ) (dt : JSDate) : Bool :=
  decide (daysFromCivil dt.year dt.month dt.day < Int.fdiv nowMs 86400000 - retentionDays)

/-- A concrete archive moment: 2020-06-15 at 10:00:00 UTC. -/
def cexNow : ℤ := 86400000 * daysFromCivil 2020 6 15 + 36000000

/-- C1 counterexample: with a 14-day retention evaluated at 2020-06-15
10:00 UTC, the cutoff day is 2020-06-01, and a section dated exactly
2020-06-01 is classified expired by the code (its UTC midnight lies before
the millisecond cutoff 2020-06-01 10:00), while the claim's date-granularity
cutoff retains it. -/
theorem cutoff_date_granularity_cex :
    parseDateFromHeading "## 2020-06-01" = some ⟨2020, 6, 1⟩ ∧
    sectionExpired (getCutoffDate cexNow 14) ⟨"## 2020-06-01", "## 2020-06-01\nwork"⟩ = true ∧
    specExpired cexNow 14 ⟨2020, 6, 1⟩ = false := by
  refine ⟨by decide, by decide, by decide⟩

/-- C1 amended: classification is timestamp-granular, not date-granular.  A
section with a parseable heading date is classified expired exactly when its
UTC-midnight timestamp is strictly less than the current time minus the
retention period in milliseconds. -/
theorem cutoff_timestamp_granularity (heading body : String) (retentionDays nowMs : ℤ)
    (dt : JSDate) (h : parseDateFromHeading heading = some dt) :
    sectionExpired (getCutoffDate nowMs retentionDays) ⟨heading, body⟩ = true ↔
      dateMs dt < nowMs - retentionDays * 86400000 := by
  unfold sectionExpired getCutoffDate
  rw [show (LogSection.mk heading body).heading = heading from rfl, h]
  simp

theorem cutoff_timestamp_granularity_witness :
    parseDateFromHeading "## 2020-01-01" = some ⟨2020, 1, 1⟩ ∧
    (sectionExpired (getCutoffDate cexNow 14) ⟨"## 2020-01-01", ""⟩ = true ↔
      dateMs ⟨2020, 1, 1⟩ < cexNow - 14 * 86400000) :=
  ⟨by decide, cutoff_timestamp_granularity "## 2020-01-01" "" 14 cexNow ⟨2020, 1, 1⟩ (by decide)⟩

/-- C7: for non-empty (after trimming) arguments, path containment
resolution fails with an escape error exactly when the resolved absolute
path is neither equal to nor nested under the normalised root, and returns
the resolved absolute path otherwise. -/
theorem resolveMemoryPath_contained_iff (root rel : String)
    (hroot : jsTrim root ≠ "") (hrel : jsTrim rel ≠ "") :
    (resolveMemoryPath root rel = .error .escape ↔
      containedInRoot root (posixResolve root rel) = false) ∧
    (containedInRoot root (posixResolve root rel) = true →
      resolveMemoryPath root rel = .ok (posixResolve root rel)) := by
  unfold resolveMemoryPath containedInRoot
  rw [if_neg hroot, if_neg hrel]
  cases hp : strIsPrefixOf (addSep (normAbs root)) (posixResolve root rel) <;>
    cases he : (posixResolve root rel == normAbs root) <;>
      simp [hp, he]

theorem resolveMemoryPath_contained_iff_witness :
    resolveMemoryPath "/project" "../../etc/passwd" = .error .escape ∧
    resolveMemoryPath "/project" "memory/USER.md" = .ok "/project/memory/USER.md" := by
  constructor
  · exact (resolveMemoryPath_contained_iff "/project" "../../etc/passwd"
      (by decide) (by decide)).1.mpr (by decide)
  · have h := (resolveMemoryPath_contained_iff "/project" "memory/USER.md"
      (by decide) (by decide)).2 (by decide)
    rw [show posixResolve "/project" "memory/USER.md" = "/project/memory/USER.md" by decide] at h
    exact h

/-! ### Classification-loop lemmas -/

theorem classifyStep_keep (c : ℤ) (st : Classified) (s : LogSection) :
    (classifyStep c st s).keep =
      st.keep ++ if sectionExpired c s then [] else [s.content] := by
  unfold classifyStep sectionExpired
  cases h : parseDateFromHeading s.heading with
  | none => simp
  | some d =>
    by_cases hlt : dateMs d < c
    · simp [hlt]
    · simp [hlt]

theorem classifyStep_count (c : ℤ) (st : Classified) (s : LogSection) :
    (classifyStep c st s).count =
      st.count + if sectionExpired c s then 1 else 0 := by
  unfold classifyStep sectionExpired
  cases h : parseDateFromHeading s.heading with
  | none => simp
  | some d =>
    by_cases hlt : dateMs d < c
    · simp [hlt]
    · simp [hlt]

theorem classifyStep_buckets (c : ℤ) (st : Classified) (s : LogSection) :
    (classifyStep c st s).buckets =
      if sectionExpired c s then
        pushBucket st.buckets ((sectionKey s).getD "") s.content
      else st.buckets := by
  unfold classifyStep sectionExpired sectionKey
  cases h : parseDateFromHeading s.heading with
  | none => simp
  | some d =>
    by_cases hlt : dateMs d < c
    · simp [hlt]
    · simp [hlt]

theorem classify_keep (c : ℤ) (l : List LogSection) (st : Classified) :
    (l.foldl (classifyStep c) st).keep =
      st.keep ++ (l.filter (fun s => ! sectionExpired c s)).map (·.content) := by
  induction l generalizing st with
  | nil => simp
  | cons s l ih =>
    rw [List.foldl_cons, ih, classifyStep_keep]
    cases hE : sectionExpired c s
    · simp [List.filter_cons, hE]
    · simp [List.filter_cons, hE]

theorem classify_count (c : ℤ) (l : List LogSection) (st : Classified) :
    (l.foldl (classifyStep c) st).count = st.count + l.countP (sectionExpired c) := by
  induction l generalizing st with
  | nil => simp
  | cons s l ih =>
    rw [List.foldl_cons, ih, classifyStep_count, List.countP_cons]
    cases hE : sectionExpired c s
    · simp [hE]
    · simp [hE]; omega

/-- Association lookup in a bucket list (the first entry wins; the
classification loop keeps keys unique). -/
def assocGet : List (String × List String) → String → Option (List String)
  | [], _ => none
  | (k, vs) :: rest, d => if k = d then some vs else assocGet rest d

def bucketKeys (bs : List (String × List String)) : List String :=
  bs.map (·.1)

theorem pushBucket_get (bs : List (String × List String)) (k v d : String) :
    assocGet (pushBucket bs k v) d =
      if d = k then some (((assocGet bs k).getD []) ++ [v]) else assocGet bs d := by
  induction bs with
  | nil =>
    by_cases hdk : d = k
    · subst hdk; simp [pushBucket, assocGet]
    · have hkd : ¬ k = d := fun h => hdk h.symm
      simp [pushBucket, assocGet, hdk, hkd]
  | cons hd tl ih =>
    obtain ⟨k2, vs⟩ := hd
    by_cases hk : k2 = k
    · subst hk
      by_cases hdk : d = k2
      · subst hdk; simp [pushBucket, assocGet]
      · have hkd : ¬ k2 = d := fun h => hdk h.symm
        simp [pushBucket, assocGet, hdk, hkd]
    · by_cases hdk2 : k2 = d
      · subst hdk2
        have hdk : ¬ k2 = k := hk
        simp [pushBucket, assocGet, hk, hdk]
      · simp only [pushBucket, if_neg hk, assocGet, if_neg hdk2, ih]

theorem pushBucket_keys (bs : List (String × List String)) (k v : String) :
    bucketKeys (pushBucket bs k v) =
      if k ∈ bucketKeys bs then bucketKeys bs else bucketKeys bs ++ [k] := by
  induction bs with
  | nil => simp [pushBucket, bucketKeys]
  | cons hd tl ih =>
    obtain ⟨k2, vs⟩ := hd
    by_cases hk : k2 = k
    · subst hk; simp [pushBucket, bucketKeys]
    · have hnk : ¬ (k = k2) := fun h => hk h.symm
      rw [show pushBucket ((k2, vs) :: tl) k v = (k2, vs) :: pushBucket tl k v from by
            simp [pushBucket, hk],
          show bucketKeys ((k2, vs) :: pushBucket tl k v) =
            k2 :: bucketKeys (pushBucket tl k v) from rfl,
          ih,
          show bucketKeys ((k2, vs) :: tl) = k2 :: bucketKeys tl from rfl]
      by_cases hmem : k ∈ bucketKeys tl
      · rw [if_pos hmem, if_pos (by simp [List.mem_cons, hmem])]
      · rw [if_neg hmem, if_neg (by simp [List.mem_cons, hmem, hnk])]
        rfl

theorem pushBucket_keysNodup (bs : List (String × List String)) (k v : String)
    (h : (bucketKeys bs).Nodup) : (bucketKeys (pushBucket bs k v)).Nodup := by
  rw [pushBucket_keys]
  by_cases hmem : k ∈ bucketKeys bs
  · simpa [hmem] using h
  · rw [if_neg hmem, List.nodup_append]
    exact ⟨h, List.nodup_singleton k, fun a ha hb => by
      rw [List.mem_singleton] at hb; subst hb; exact hmem ha⟩

theorem assocGet_of_mem {bs : List (String × List String)} {d : String} {es : List String}
    (hnd : (bucketKeys bs).Nodup) (h : (d, es) ∈ bs) :
    assocGet bs d = some es := by
  induction bs with
  | nil => cases h
  | cons hd tl ih =>
    obtain ⟨k2, vs⟩ := hd
    have hnodup := hnd
    rw [show bucketKeys ((k2, vs) :: tl) = k2 :: bucketKeys tl from rfl,
        List.nodup_cons] at hnodup
    rcases List.mem_cons.mp h with heq | hmem
    · injection heq with h1 h2
      subst h1; subst h2
      simp [assocGet]
    · have hk2 : ¬ (k2 = d) := by
        intro heq
        subst heq
        exact hnodup.1 (by
          simpa [bucketKeys] using List.mem_map_of_mem (fun p => p.1) hmem)
      rw [show assocGet ((k2, vs) :: tl) d = assocGet tl d from by simp [assocGet, hk2]]
      exact ih hnodup.2 hmem

theorem classify_keysNodup (c : ℤ) (l : List LogSection) (st : Classified)
    (h : (bucketKeys st.buckets).Nodup) :
    (bucketKeys (l.foldl (classifyStep c) st).buckets).Nodup := by
  induction l generalizing st with
  | nil => simpa using h
  | cons s l ih =>
    rw [List.foldl_cons]
    apply ih
    rw [classifyStep_buckets]
    by_cases hE : sectionExpired c s = true
    · rw [if_pos hE]
      exact pushBucket_keysNodup _ _ _ h
    · rw [if_neg hE]
      exact h

/-- The expired sections of a list that fall into the bucket of one date
string, in encounter order. -/
def entriesFor (c : ℤ) (l : List LogSection) (d : String) : List String :=
  (l.filter (fun s => sectionExpired c s && (sectionKey s).getD "" == d)).map (·.content)

theorem entriesFor_cons (c : ℤ) (s : LogSection) (l : List LogSection) (d : String) :
    entriesFor c (s :: l) d =
      (if sectionExpired c s && (sectionKey s).getD "" == d then [s.content] else []) ++
        entriesFor c l d := by
  unfold entriesFor
  rw [List.filter_cons]
  by_cases h : (sectionExpired c s && (sectionKey s).getD "" == d) = true <;> simp [h]

theorem classify_buckets_getD (c : ℤ) (l : List LogSection) (st : Classified) (d : String) :
    (assocGet (l.foldl (classifyStep c) st).buckets d).getD [] =
      (assocGet st.buckets d).getD [] ++ entriesFor c l d := by
  induction l generalizing st with
  | nil => simp [entriesFor]
  | cons s l ih =>
    rw [List.foldl_cons, ih, classifyStep_buckets, entriesFor_cons]
    by_cases hE : sectionExpired c s = true
    · rw [if_pos hE]
      by_cases hkey : (sectionKey s).getD "" = d
      · have hbe : (sectionExpired c s && ((sectionKey s).getD "" == d)) = true := by
          rw [hE, hkey]; simp
        rw [hbe, pushBucket_get, if_pos hkey.symm, hkey]
        simp
      · have hbe : (sectionExpired c s && ((sectionKey s).getD "" == d)) = false := by
          simp [hE, hkey]
        rw [hbe, pushBucket_get, if_neg (fun hh => hkey hh.symm)]
        simp
    · rw [if_neg hE]
      have hbe : (sectionExpired c s && ((sectionKey s).getD "" == d)) = false := by
        rw [Bool.not_eq_true] at hE
        simp [hE]
      rw [hbe]
      simp

theorem classify_buckets_none (c : ℤ) (l : List LogSection) (st : Classified) (d : String) :
    assocGet (l.foldl (classifyStep c) st).buckets d = none ↔
      (assocGet st.buckets d = none ∧ entriesFor c l d = []) := by
  induction l generalizing st with
  | nil => simp [entriesFor]
  | cons s l ih =>
    rw [List.foldl_cons, ih, classifyStep_buckets, entriesFor_cons]
    by_cases hE : sectionExpired c s = true
    · rw [if_pos hE]
      by_cases hkey : (sectionKey s).getD "" = d
      · have hbe : (sectionExpired c s && ((sectionKey s).getD "" == d)) = true := by
          rw [hE, hkey]; simp
        rw [hbe, pushBucket_get, if_pos hkey.symm]
        simp
      · have hbe : (sectionExpired c s && ((sectionKey s).getD "" == d)) = false := by
          simp [hE, hkey]
        rw [hbe, pushBucket_get, if_neg (fun hh => hkey hh.symm)]
        simp
    · rw [if_neg hE]
      have hbe : (sectionExpired c s && ((sectionKey s).getD "" == d)) = false := by
        rw [Bool.not_eq_true] at hE
        simp [hE]
      rw [hbe]
      simp

theorem classify_bucket_mem (c : ℤ) (sections : List LogSection) (d : String)
    (es : List String) (h : (d, es) ∈ (classifySections c sections).buckets) :
    es = entriesFor c sections d ∧ es ≠ [] := by
  have hnd : (bucketKeys (classifySections c sections).buckets).Nodup := by
    unfold classifySections
    exact classify_keysNodup c sections ⟨[], [], 0⟩ (by simp [bucketKeys])
  have hget : assocGet (classifySections c sections).buckets d = some es :=
    assocGet_of_mem hnd h
  have hgetD := classify_buckets_getD c sections ⟨[], [], 0⟩ d
  have hnone := classify_buckets_none c sections ⟨[], [], 0⟩ d
  unfold classifySections at hget
  rw [hget] at hgetD hnone
  simp [assocGet] at hgetD hnone
  constructor
  · exact hgetD
  · intro hnil
    exact hnone (by rw [← hgetD, hnil])

/-- A helper partition count: the sections failing a Bool predicate plus the
sections satisfying it add up to all sections. -/
theorem countP_split {α : Type} (p : α → Bool) (l : List α) :
    (l.filter (fun a => ! p a)).length + l.countP p = l.length := by
  induction l with
  | nil => simp
  | cons a l ih =>
    cases h : p a
    · simp [List.filter_cons, List.countP_cons, h]
      omega
    · simp [List.filter_cons, List.countP_cons, h]
      omega

/-- A sample live log used for concrete instantiations: one expired section
(followed by a blank separator line) and one future-dated section. -/
def sampleLog : String := "---\n## 2020-01-01\nfoo\n\n## 2099-01-01\nnew"

/-- C4: classification partitions the parsed sections: the number kept plus
the number expired equals the number of sections, the kept contents are an
order-preserving sublist of all section contents, and the run's archived
count is the classification's expired count. -/
theorem classification_partitions (content : String) (retentionDays nowMs : ℤ)
    (ex : String → String) :
    (classifySections (getCutoffDate nowMs retentionDays) (parseLogSections content).2).keep.length +
      (classifySections (getCutoffDate nowMs retentionDays) (parseLogSections content).2).count =
      (parseLogSections content).2.length ∧
    List.Sublist
      (classifySections (getCutoffDate nowMs retentionDays) (parseLogSections content).2).keep
      ((parseLogSections content).2.map (·.content)) ∧
    (archiveLogEntries content retentionDays nowMs ex).archived =
      (classifySections (getCutoffDate nowMs retentionDays) (parseLogSections content).2).count := by
  refine ⟨?_, ?_, ?_⟩
  · unfold classifySections
    rw [classify_keep, classify_count]
    simp only [List.nil_append, Nat.zero_add, List.length_map]
    exact countP_split _ _
  · unfold classifySections
    rw [classify_keep]
    simp only [List.nil_append]
    exact List.Sublist.map _ (List.filter_sublist _)
  · simp only [archiveLogEntries]
    by_cases h0 : (classifySections (getCutoffDate nowMs retentionDays)
        (parseLogSections content).2).count = 0
    · rw [if_pos h0, h0]
    · rw [if_neg h0]

/-- The rewritten live document described by the specification: header, a
blank line, the kept sections joined by blank lines, a trailing newline; or
header and a newline when nothing is kept. -/
def rewrittenLog (content : String) (retentionDays nowMs : ℤ) : String :=
  let pr := parseLogSections content
  let keep := (pr.2.filter
    (fun s => ! sectionExpired (getCutoffDate nowMs retentionDays) s)).map (·.content)
  if keep.length > 0 then pr.1 ++ "\n\n" ++ String.intercalate "\n\n" keep ++ "\n"
  else pr.1 ++ "\n"

/-- C6: when no section is expired the live document is not written at all
(no write event is produced); when at least one is expired the rewritten
document is exactly header, blank line, kept sections joined by blank lines,
trailing newline (or header plus newline when nothing is kept); and the
header is a verbatim prefix of anything ever written to the live document. -/
theorem live_rewrite_frame (content : String) (retentionDays nowMs : ℤ)
    (ex : String → String) :
    ((archiveLogEntries content retentionDays nowMs ex).archived = 0 →
      (archiveLogEntries content retentionDays nowMs ex).logWrite = none ∧
      (archiveLogEntries content retentionDays nowMs ex).events = []) ∧
    ((archiveLogEntries content retentionDays nowMs ex).archived ≠ 0 →
      (archiveLogEntries content retentionDays nowMs ex).logWrite =
        some (rewrittenLog content retentionDays nowMs)) ∧
    (∀ cw, (archiveLogEntries content retentionDays nowMs ex).logWrite = some cw →
      List.IsPrefix (parseLogSections content).1.data cw.data) := by
  have hkeep : (classifySections (getCutoffDate nowMs retentionDays)
      (parseLogSections content).2).keep =
      ((parseLogSections content).2.filter
        (fun s => ! sectionExpired (getCutoffDate nowMs retentionDays) s)).map (·.content) := by
    unfold classifySections
    rw [classify_keep]
    simp
  simp only [archiveLogEntries]
  by_cases h0 : (classifySections (getCutoffDate nowMs retentionDays)
      (parseLogSections content).2).count = 0
  · rw [if_pos h0]
    refine ⟨fun _ => ⟨rfl, rfl⟩, fun hne => absurd rfl hne, ?_⟩
    intro cw hcw
    cases hcw
  · rw [if_neg h0]
    refine ⟨fun h => absurd h h0, fun _ => ?_, ?_⟩
    · simp only [rewrittenLog]
      rw [← hkeep]
    · intro cw hcw
      injection hcw with h2
      rw [← h2]
      by_cases hk : (classifySections (getCutoffDate nowMs retentionDays)
          (parseLogSections content).2).keep.length > 0
      · rw [if_pos hk]
        exact ⟨("\n\n" ++ String.intercalate "\n\n"
            (classifySections (getCutoffDate nowMs retentionDays)
              (parseLogSections content).2).keep ++ "\n").data, by
          simp [String.data_append]⟩
      · rw [if_neg hk]
        exact ⟨("\n" : String).data, by simp [String.data_append]⟩

theorem live_rewrite_frame_witness :
    (archiveLogEntries "---\n## 2099-01-01\nx" 14 cexNow (fun _ => "")).logWrite = none ∧
    (archiveLogEntries sampleLog 14 cexNow (fun _ => "")).logWrite =
      some (rewrittenLog sampleLog 14 cexNow) ∧
    List.IsPrefix ("---" : String).data ("---\n\n## 2099-01-01\nnew\n" : String).data := by
  refine ⟨((live_rewrite_frame "---\n## 2099-01-01\nx" 14 cexNow (fun _ => "")).1
      (by decide)).1, ?_, ?_⟩
  · exact (live_rewrite_frame sampleLog 14 cexNow (fun _ => "")).2.1 (by decide)
  · have h := (live_rewrite_frame sampleLog 14 cexNow (fun _ => "")).2.2
      "---\n\n## 2099-01-01\nnew\n" (by decide)
    have hh : (parseLogSections sampleLog).1 = "---" := by decide
    rw [hh] at h
    exact h

/-- C3 counterexample: the content flushed into the archive bucket is the
trimmed section content, not the section bytes as they appeared in the live
log.  In the sample document the expired section occupies the lines
heading, foo, and an empty line (the blank separator before the next
heading), whose byte content ends in a newline, while the archived bucket
receives the trimmed form without it. -/
theorem bucket_byte_roundtrip_cex :
    (archiveLogEntries sampleLog 14 cexNow (fun _ => "")).archiveWrites =
      [("2020-01-01", "## 2020-01-01\nfoo")] ∧
    splitLines sampleLog = ["---", "## 2020-01-01", "foo", "", "## 2099-01-01", "new"] ∧
    String.intercalate "\n" ["## 2020-01-01", "foo", ""] = "## 2020-01-01\nfoo\n" ∧
    "## 2020-01-01\nfoo" ≠ "## 2020-01-01\nfoo\n" := by
  refine ⟨by decide, by decide, by decide, by decide⟩

/-- C3 amended: each archive-bucket write consists of the trimmed contents
of that date's expired sections, in encounter order, joined by blank lines,
with the pre-existing archive content appended after a blank line when it is
non-empty — so the existing archive content is never truncated, it remains a
suffix of the flushed file. -/
theorem bucket_flush_content (content : String) (retentionDays nowMs : ℤ)
    (ex : String → String) (d c : String)
    (h : (d, c) ∈ (archiveLogEntries content retentionDays nowMs ex).archiveWrites) :
    entriesFor (getCutoffDate nowMs retentionDays) (parseLogSections content).2 d ≠ [] ∧
    c = String.intercalate "\n\n"
          (entriesFor (getCutoffDate nowMs retentionDays) (parseLogSections content).2 d) ++
        (if ex d = "" then "" else "\n\n" ++ ex d) ∧
    (ex d ≠ "" → ∃ p, c = p ++ ex d) := by
  simp only [archiveLogEntries] at h
  by_cases h0 : (classifySections (getCutoffDate nowMs retentionDays)
      (parseLogSections content).2).count = 0
  · rw [if_pos h0] at h
    cases h
  · rw [if_neg h0] at h
    obtain ⟨pr, hmem, heq⟩ := List.mem_map.mp h
    obtain ⟨d2, es⟩ := pr
    dsimp only at heq
    injection heq with hd hc
    subst hd
    obtain ⟨hes, hne⟩ := classify_bucket_mem _ _ _ _ hmem
    subst hes
    refine ⟨hne, ?_, ?_⟩
    · rw [← hc]
      unfold flushBucket
      by_cases hex : ex d2 = ""
      · rw [if_pos hex]
      · rw [if_neg hex]
    · intro hex
      refine ⟨String.intercalate "\n\n"
        (entriesFor (getCutoffDate nowMs retentionDays) (parseLogSections content).2 d2) ++
          "\n\n", ?_⟩
      rw [← hc]
      unfold flushBucket
      rw [if_neg hex, String.append_assoc]

theorem bucket_flush_content_witness :
    ("2020-01-01", "## 2020-01-01\nfoo\n\nOLD") ∈
      (archiveLogEntries sampleLog 14 cexNow (fun _ => "OLD")).archiveWrites ∧
    entriesFor (getCutoffDate cexNow 14) (parseLogSections sampleLog).2 "2020-01-01" ≠ [] ∧
    "## 2020-01-01\nfoo\n\nOLD" = String.intercalate "\n\n"
      (entriesFor (getCutoffDate cexNow 14) (parseLogSections sampleLog).2 "2020-01-01") ++
      (if ("OLD" : String) = "" then "" else "\n\n" ++ "OLD") := by
  have hmem : ("2020-01-01", "## 2020-01-01\nfoo\n\nOLD") ∈
      (archiveLogEntries sampleLog 14 cexNow (fun _ => "OLD")).archiveWrites := by decide
  have h := bucket_flush_content sampleLog 14 cexNow (fun _ => "OLD") _ _ hmem
  exact ⟨hmem, h.1, h.2.1⟩

/-- C8: within one run, every archive-bucket write event precedes the
live-log rewrite event in the produced event order: a bucket write at
position j and the live write at position i force j before i. -/
theorem bucket_writes_before_live (content : String) (retentionDays nowMs : ℤ)
    (ex : String → String) (i j : Nat) (ds cs lc : String)
    (hb : (archiveLogEntries content retentionDays nowMs ex).events[j]? =
      some (WriteEvent.bucketWrite ds cs))
    (hl : (archiveLogEntries content retentionDays nowMs ex).events[i]? =
      some (WriteEvent.liveWrite lc)) :
    j < i := by
  simp only [archiveLogEntries] at hb hl
  by_cases h0 : (classifySections (getCutoffDate nowMs retentionDays)
      (parseLogSections content).2).count = 0
  · rw [if_pos h0] at hb
    cases hb
  · rw [if_neg h0] at hb hl
    set ws := (classifySections (getCutoffDate nowMs retentionDays)
        (parseLogSections content).2).buckets.map
        (fun p => (p.1, flushBucket (ex p.1) p.2)) with hws
    have hj : j < (ws.map (fun p => WriteEvent.bucketWrite p.1 p.2)).length := by
      by_contra hge
      rw [List.getElem?_append, if_neg hge] at hb
      rcases hj2 : j - (ws.map (fun p => WriteEvent.bucketWrite p.1 p.2)).length with _ | n
      · rw [hj2] at hb
        simp at hb
      · rw [hj2] at hb
        simp at hb
    have hi : (ws.map (fun p => WriteEvent.bucketWrite p.1 p.2)).length ≤ i := by
      by_contra hlt
      rw [not_le] at hlt
      rw [List.getElem?_append, if_pos hlt, List.getElem?_map] at hl
      rcases hx : (ws[i]?) with _ | w
      · rw [hx] at hl; cases hl
      · rw [hx] at hl
        simp at hl
    omega

theorem bucket_writes_before_live_witness :
    (archiveLogEntries sampleLog 14 cexNow (fun _ => "")).events[0]? =
      some (WriteEvent.bucketWrite "2020-01-01" "## 2020-01-01\nfoo") ∧
    (archiveLogEntries sampleLog 14 cexNow (fun _ => "")).events[1]? =
      some (WriteEvent.liveWrite "---\n\n## 2099-01-01\nnew\n") ∧
    0 < 1 := by
  refine ⟨by decide, by decide,
    bucket_writes_before_live sampleLog 14 cexNow (fun _ => "") 1 0
      "2020-01-01" "## 2020-01-01\nfoo" "---\n\n## 2099-01-01\nnew\n"
      (by decide) (by decide)⟩

end AiMemory
